import Mathlib

/-!
Verification of the section splitter of `md2json.py`.

The program converts a Markdown document into a list of sections.  Its core
function `convert_markdown_to_json` splits the document into lines, detects
level-2 headers with the regular expression `^##\s*(.+)$`, accumulates the
lines between headers, and normalizes each accumulated body with
`str.strip()` followed by `re.sub(r'\n\s*\n', '\n\n', body)`.

Strings are embedded as `List Char`.  Python's notion of whitespace (used by
`str.strip` and by `\s` of the `re` module on `str` patterns) is embedded by
`isPySpace`, and the line boundaries recognized by `str.splitlines` by
`isLineBreak`.  Both predicates cover the ASCII control characters together
with the further Unicode line separators; this is the character set relevant
to the program's behaviour on text input.
-/

/-- Strings of the embedded program are lists of characters. -/
abbrev Str := List Char

/-- Whitespace as recognized by Python's `str.strip` and by `\s` of the
`re` module: space, tab, newline, carriage return, vertical tab, form feed,
the file/group/record/unit separators, next line, no-break space and the
Unicode line/paragraph separators. -/
def isPySpace (c : Char) : Bool :=
  c == ' ' || c == '\t' || c == '\n' || c == '\r' || c == '\x0b' ||
  c == '\x0c' || c == '\x1c' || c == '\x1d' || c == '\x1e' || c == '\x1f' ||
  c == '\x85' || c == '\xa0' || c == ' ' || c == ' '

/-- Line boundaries recognized by Python's `str.splitlines`. -/
def isLineBreak (c : Char) : Bool :=
  c == '\n' || c == '\r' || c == '\x0b' || c == '\x0c' || c == '\x1c' ||
  c == '\x1d' || c == '\x1e' || c == '\x85' || c == ' ' || c == ' '

/-- Worker of `splitlines`: `acc` holds the characters of the current line
in reverse.  A `"\r\n"` pair counts as a single boundary, and a final line
is emitted only when it is non-empty, matching `str.splitlines` (no trailing
empty line artifact). -/
def splitlinesAux : Str → Str → List Str
  | acc, [] => if acc.isEmpty then [] else [acc.reverse]
  | acc, c :: rest =>
    if c = '\r' then
      match rest with
      | d :: rest2 =>
        if d = '\n' then acc.reverse :: splitlinesAux [] rest2
        else acc.reverse :: splitlinesAux [] (d :: rest2)
      | [] => acc.reverse :: splitlinesAux [] []
    else if isLineBreak c then acc.reverse :: splitlinesAux [] rest
    else splitlinesAux (c :: acc) rest

/-- Python's `str.splitlines`: split on line boundaries, with no trailing
empty line when the text ends in a boundary.  This embeds line 31 of
`md2json.py`: `lines = md_content.splitlines()`. -/
def splitlines (s : Str) : List Str := splitlinesAux [] s

/-- Python's `str.strip()`: remove leading and trailing whitespace. -/
def stripBoth (l : Str) : Str :=
  ((l.dropWhile isPySpace).reverse.dropWhile isPySpace).reverse

/-- The part of the remainder after the marker `##` matched by `\s*(.+)$`:
the greedy `\s*` consumes the longest whitespace run that still leaves at
least one character for `(.+)`.  On a non-empty all-whitespace remainder the
engine backtracks, so group 1 is the last (whitespace) character; otherwise
group 1 is the remainder with its whitespace run removed.  `none` when the
remainder is empty.  Faithful to `re` for line-break-free lines, which is
what `splitlines` produces. -/
def matchAfterMarker (rest : Str) : Option Str :=
  let q := rest.dropWhile isPySpace
  if q.isEmpty then rest.getLast?.map (fun c => [c]) else some q

/-- `header_pattern.match(line)` for `header_pattern = re.compile(r'^##\s*(.+)$')`
(line 38 of `md2json.py`): returns group 1 when the line matches.  The
pattern anchors at the start, requires two literal `#` characters, then
`\s*(.+)$` as in `matchAfterMarker`.  Note the pattern puts no upper bound
on the number of `#`: a third `#` is simply part of the captured remainder. -/
def headerMatch (line : Str) : Option Str :=
  match line with
  | c1 :: c2 :: rest => if c1 = '#' ∧ c2 = '#' then matchAfterMarker rest else none
  | _ => none

/-- Maximal whitespace run at the head of a string (`\s*`, greedy). -/
def wsRun (l : Str) : Str := l.takeWhile isPySpace

/-- Continuation point after the single greedy match of `\n\s*\n` whose
first `\n` immediately precedes `l`: the match extends to the last newline
of the whitespace run of `l`, so scanning resumes at the newline-free tail
of that run followed by the rest of the string. -/
def skipMatched (l : Str) : Str :=
  ((wsRun l).reverse.takeWhile (fun c => c != '\n')).reverse ++ l.drop (wsRun l).length

/-- `re.sub(r'\n\s*\n', '\n\n', s)` (lines 53 and 71 of `md2json.py`):
scan left to right; at a newline whose following whitespace run contains
another newline the pattern matches (greedily, up to the last newline of
the run), the match is replaced by two newlines and scanning resumes after
the match; every other character is copied. -/
def subNL : Str → Str
  | [] => []
  | c :: rest =>
    if h : c = '\n' ∧ '\n' ∈ wsRun rest then
      '\n' :: '\n' :: subNL (skipMatched rest)
    else
      c :: subNL rest
termination_by l => l.length
decreasing_by
  · have hlen : ∀ (pr : Char → Bool) (q : Str), (q.takeWhile pr).length ≤ q.length := by
      intro pr q
      induction q with
      | nil => simp
      | cons a as ih =>
        rw [List.takeWhile_cons]
        by_cases hpa : pr a = true
        · simp only [if_pos hpa, List.length_cons]
          omega
        · simp only [if_neg hpa, List.length_nil]
          omega
    have hstrict : ∀ q : Str, '\n' ∈ q →
        (q.takeWhile (fun c => c != '\n')).length < q.length := by
      intro q hq
      induction q with
      | nil => simp at hq
      | cons a as ih =>
        rw [List.takeWhile_cons]
        by_cases ha : a = '\n'
        · subst ha
          simp
        · have ha' : (a != '\n') = true := by simpa using ha
          have hmem : '\n' ∈ as := by
            rcases List.mem_cons.mp hq with h1 | h1
            · exact absurd h1.symm ha
            · exact h1
          simp only [if_pos ha', List.length_cons]
          exact Nat.succ_lt_succ (ih hmem)
    obtain ⟨-, hmem⟩ := h
    have h1 : '\n' ∈ (wsRun rest).reverse := List.mem_reverse.mpr hmem
    have h2 := hstrict ((wsRun rest)).reverse h1
    have h3 := hlen isPySpace rest
    simp only [List.length_reverse] at h2
    simp only [skipMatched, List.length_append, List.length_reverse, List.length_drop,
      List.length_cons]
    unfold wsRun at h2 h3 ⊢
    omega
  · simp only [List.length_cons]
    omega

/-- The cleaning applied to an accumulated section body (lines 52–53 and
70–71 of `md2json.py`): `strip()` then `re.sub(r'\n\s*\n', '\n\n', ·)`. -/
def cleanContent (c : Str) : Str := subNL (stripBoth c)

/-- A section record `{'title': ..., 'content': ...}`. -/
structure MDSection where
  title : Str
  content : Str
deriving DecidableEq

/-- The end-of-section step (lines 48–55 and 69–73 of `md2json.py`): if a
section is open, clean its content and append it to the list. -/
def finalizeInto (cur : Option (Str × Str)) (secs : List MDSection) : List MDSection :=
  match cur with
  | none => secs
  | some (t, c) => secs ++ [⟨t, cleanContent c⟩]

/-- The for-loop of `convert_markdown_to_json` (lines 40–66): `cur` is the
open section (`current_section`, `none` for the initial empty dict), `secs`
the sections emitted so far.  A header line finalizes the open section and
opens a new one with the trimmed group 1 as title; any other line is
appended (plus `'\n'`) to the open section's content, or discarded when no
section is open. -/
def convLoop : List Str → Option (Str × Str) → List MDSection → List MDSection
  | [], cur, secs => finalizeInto cur secs
  | line :: rest, cur, secs =>
    match headerMatch line with
    | some g => convLoop rest (some (stripBoth g, [])) (finalizeInto cur secs)
    | none =>
      match cur with
      | none => convLoop rest none secs
      | some (t, c) => convLoop rest (some (t, c ++ line ++ ['\n'])) secs

/-- `convert_markdown_to_json` (lines 24–75 of `md2json.py`). -/
def convert_markdown_to_json (md : Str) : List MDSection :=
  convLoop (splitlines md) none []

/-- A string contains a run of blank (whitespace-only) material spanning
more than one blank line: somewhere a newline is followed by a non-empty
run of whitespace and then another newline.  Normalized content must not
contain such a run — between paragraphs exactly the two newlines of a
single blank line may remain. -/
def HasBadRun (s : Str) : Prop :=
  ∃ l w r, s = l ++ '\n' :: w ++ '\n' :: r ∧ w ≠ [] ∧ ∀ c ∈ w, isPySpace c = true

/-- Modelled from the spec: a line "starts with exactly the two-character
marker `##`" followed by a required non-empty remainder.  This is the
boundary test as the claim words it; the code's regex is `headerMatch`. -/
def isHeaderSpec : Str → Bool
  | c1 :: c2 :: _ :: _ => c1 == '#' && c2 == '#'
  | _ => false

/-- Join lines back into a body, each line terminated by a newline — the
accumulated content of a section before normalization. -/
def joinLines (ls : List Str) : Str := ls.foldr (fun l acc => l ++ '\n' :: acc) []

/-- Modelled from the spec: the result is one section per header line, in
source order; a section's title is the trimmed captured remainder of its
header line, and its content is the normalized text of exactly the lines
between that header and the next header (or the end of the document). -/
def splitSpec : List Str → List MDSection
  | [] => []
  | l :: rest =>
    match headerMatch l with
    | some g =>
      MDSection.mk (stripBoth g)
          (cleanContent (joinLines (rest.takeWhile (fun l2 => (headerMatch l2).isNone))))
        :: splitSpec (rest.drop (rest.takeWhile (fun l2 => (headerMatch l2).isNone)).length)
    | none => splitSpec rest
termination_by ls => ls.length
decreasing_by
  · simp only [List.length_drop, List.length_cons]
    omega
  · simp only [List.length_cons]
    omega

/-! ### Basic list helpers -/

theorem takeWhile_length_le {α : Type _} (p : α → Bool) (l : List α) :
    (l.takeWhile p).length ≤ l.length := by
  induction l with
  | nil => simp
  | cons a as ih =>
    rw [List.takeWhile_cons]
    by_cases hpa : p a = true
    · simp only [if_pos hpa, List.length_cons]
      omega
    · simp only [if_neg hpa, List.length_nil]
      omega

theorem takeWhile_eq_self_of_all {α : Type _} {p : α → Bool} {l : List α}
    (h : ∀ c ∈ l, p c = true) : l.takeWhile p = l := by
  induction l with
  | nil => rfl
  | cons a as ih =>
    rw [List.takeWhile_cons, if_pos (h a (List.mem_cons_self a as))]
    rw [ih (fun c hc => h c (List.mem_cons_of_mem a hc))]

theorem takeWhile_append_of_all {α : Type _} {p : α → Bool} {w : List α} (r : List α)
    (h : ∀ c ∈ w, p c = true) : (w ++ r).takeWhile p = w ++ r.takeWhile p := by
  induction w with
  | nil => rfl
  | cons a as ih =>
    rw [List.cons_append, List.takeWhile_cons, if_pos (h a (List.mem_cons_self a as))]
    rw [ih (fun c hc => h c (List.mem_cons_of_mem a hc))]
    rfl

theorem dropWhile_append_of_all {α : Type _} {p : α → Bool} {w : List α} (r : List α)
    (h : ∀ c ∈ w, p c = true) : (w ++ r).dropWhile p = r.dropWhile p := by
  induction w with
  | nil => rfl
  | cons a as ih =>
    rw [List.cons_append, List.dropWhile_cons, if_pos (h a (List.mem_cons_self a as))]
    exact ih (fun c hc => h c (List.mem_cons_of_mem a hc))

theorem dropWhile_head_neg {α : Type _} {p : α → Bool} {l r : List α} {c : α}
    (h : l.dropWhile p = c :: r) : p c = false := by
  induction l with
  | nil => simp at h
  | cons a as ih =>
    rw [List.dropWhile_cons] at h
    by_cases hpa : p a = true
    · exact ih (by simpa [hpa] using h)
    · rw [if_neg hpa] at h
      cases h
      simpa using hpa

theorem drop_takeWhile_length {α : Type _} (p : α → Bool) (l : List α) :
    l.drop (l.takeWhile p).length = l.dropWhile p := by
  induction l with
  | nil => rfl
  | cons a as ih =>
    rw [List.takeWhile_cons, List.dropWhile_cons]
    by_cases hpa : p a = true
    · simp only [if_pos hpa, List.length_cons, List.drop_succ_cons]
      exact ih
    · simp only [if_neg hpa, List.length_nil, List.drop_zero]

theorem getLast?_cons_of_ne_nil {α : Type _} {c : α} {t : List α} (h : t ≠ []) :
    (c :: t).getLast? = t.getLast? := by
  cases t with
  | nil => exact absurd rfl h
  | cons d ts => rfl

/-! ### Stepping lemmas for `subNL` -/

theorem subNL_nil : subNL [] = [] := by simp [subNL]

theorem subNL_match (rest : Str) (h : '\n' ∈ wsRun rest) :
    subNL ('\n' :: rest) = '\n' :: '\n' :: subNL (skipMatched rest) := by
  rw [subNL]
  simp [h]

theorem subNL_nomatch (c : Char) (rest : Str) (h : ¬ (c = '\n' ∧ '\n' ∈ wsRun rest)) :
    subNL (c :: rest) = c :: subNL rest := by
  rw [subNL]
  simp [dif_neg h]

theorem subNL_cons_ne {c : Char} (rest : Str) (h : c ≠ '\n') :
    subNL (c :: rest) = c :: subNL rest :=
  subNL_nomatch c rest (fun hh => h hh.1)

theorem subNL_cons_no_nl (c : Char) {rest : Str} (h : '\n' ∉ wsRun rest) :
    subNL (c :: rest) = c :: subNL rest :=
  subNL_nomatch c rest (fun hh => h hh.2)

theorem subNL_chunk {w : Str} (r : Str) (hn : '\n' ∉ w) :
    subNL (w ++ r) = w ++ subNL r := by
  induction w with
  | nil => rfl
  | cons a as ih =>
    have ha : a ≠ '\n' := fun he => hn (he ▸ List.mem_cons_self a as)
    rw [List.cons_append, subNL_cons_ne _ ha,
      ih (fun hm => hn (List.mem_cons_of_mem a hm))]
    rfl

theorem subNL_head (l : Str) : (subNL l).head? = l.head? := by
  cases l with
  | nil => rw [subNL_nil]
  | cons c rest =>
    by_cases h : c = '\n' ∧ '\n' ∈ wsRun rest
    · obtain ⟨hc, hm⟩ := h
      subst hc
      rw [subNL_match rest hm]
      rfl
    · rw [subNL_nomatch c rest h]
      rfl

theorem subNL_ne_nil {l : Str} (h : l ≠ []) : subNL l ≠ [] := by
  intro he
  have hh := subNL_head l
  rw [he] at hh
  cases l with
  | nil => exact h rfl
  | cons a as => simp at hh

/-! ### Facts about whitespace runs -/

theorem wsRun_nil : wsRun [] = [] := rfl

theorem wsRun_cons_pos {c : Char} (rest : Str) (h : isPySpace c = true) :
    wsRun (c :: rest) = c :: wsRun rest := by
  simp [wsRun, List.takeWhile_cons, h]

theorem wsRun_cons_neg {c : Char} (rest : Str) (h : isPySpace c = false) :
    wsRun (c :: rest) = [] := by
  simp [wsRun, List.takeWhile_cons, h]

theorem wsRun_mem_ws {l : Str} {c : Char} (h : c ∈ wsRun l) : isPySpace c = true :=
  List.mem_takeWhile_imp h

theorem wsRun_append_ws {w : Str} (r : Str) (hw : ∀ c ∈ w, isPySpace c = true) :
    wsRun (w ++ r) = w ++ wsRun r :=
  takeWhile_append_of_all r hw

theorem wsRun_dropWhile (l : Str) : wsRun (l.dropWhile isPySpace) = [] := by
  cases hd : l.dropWhile isPySpace with
  | nil => rfl
  | cons x xs => exact wsRun_cons_neg xs (dropWhile_head_neg hd)

theorem wsRun_subNL {l : Str} (h : '\n' ∉ wsRun l) : wsRun (subNL l) = wsRun l := by
  have hdecomp : wsRun l ++ l.dropWhile isPySpace = l :=
    List.takeWhile_append_dropWhile _ _
  have h1 : subNL l = wsRun l ++ subNL (l.dropWhile isPySpace) := by
    conv_lhs => rw [← hdecomp]
    exact subNL_chunk _ h
  rw [h1, wsRun_append_ws _ (fun c hc => wsRun_mem_ws hc)]
  have h2 : wsRun (subNL (l.dropWhile isPySpace)) = [] := by
    cases hd : l.dropWhile isPySpace with
    | nil => rw [subNL_nil]; rfl
    | cons x xs =>
      have hx : isPySpace x = false := dropWhile_head_neg hd
      have hh : (subNL (x :: xs)).head? = some x := by rw [subNL_head]; rfl
      cases hs : subNL (x :: xs) with
      | nil => rw [hs] at hh; simp at hh
      | cons y ys =>
        rw [hs] at hh
        have hxy : y = x := by simpa using hh
        subst hxy
        exact wsRun_cons_neg ys hx
  rw [h2, List.append_nil]

/-- Splitting a string at its last newline: the part after the last newline
is the reversed newline-free prefix of the reversal. -/
theorem last_nl_split {q : Str} (h : '\n' ∈ q) :
    ∃ a b, q = a ++ '\n' :: b ∧ '\n' ∉ b ∧
      (q.reverse.takeWhile (fun c => c != '\n')).reverse = b := by
  induction q using List.reverseRecOn with
  | nil => simp at h
  | append_singleton q' x ih =>
    by_cases hx : x = '\n'
    · subst hx
      refine ⟨q', [], rfl, by simp, ?_⟩
      rw [List.reverse_append, show (['\n'] : Str).reverse = ['\n'] from rfl,
        List.singleton_append, List.takeWhile_cons]
      simp
    · have hmem : '\n' ∈ q' := by
        rcases List.mem_append.mp h with h1 | h1
        · exact h1
        · rw [List.mem_singleton] at h1
          exact absurd h1.symm hx
      obtain ⟨a, b, hsplit, hnb, hb⟩ := ih hmem
      refine ⟨a, b ++ [x], ?_, ?_, ?_⟩
      · rw [hsplit, List.append_assoc]
        rfl
      · intro hm
        rcases List.mem_append.mp hm with h1 | h1
        · exact hnb h1
        · rw [List.mem_singleton] at h1
          exact hx h1.symm
      · have hpx : (x != '\n') = true := by simpa using hx
        rw [List.reverse_append, show ([x] : Str).reverse = [x] from rfl,
          List.singleton_append, List.takeWhile_cons, if_pos hpx,
          List.reverse_cons, hb]

/-- Decomposition of the matched region: when the whitespace run of `l`
contains a newline, the run splits as `a ++ '\n' :: b` at its last newline,
and the continuation after the match is `b` followed by the non-whitespace
rest of `l`. -/
theorem skipMatched_decomp {l : Str} (h : '\n' ∈ wsRun l) :
    ∃ a b, wsRun l = a ++ '\n' :: b ∧ (∀ c ∈ b, isPySpace c = true) ∧ '\n' ∉ b ∧
      skipMatched l = b ++ l.dropWhile isPySpace ∧
      l = a ++ '\n' :: (b ++ l.dropWhile isPySpace) := by
  obtain ⟨a, b, hsplit, hnb, hb⟩ := last_nl_split h
  have hdrop : l.drop (wsRun l).length = l.dropWhile isPySpace :=
    drop_takeWhile_length isPySpace l
  refine ⟨a, b, hsplit, ?_, hnb, ?_, ?_⟩
  · intro c hc
    exact wsRun_mem_ws (hsplit ▸ List.mem_append.mpr (Or.inr (List.mem_cons_of_mem _ hc)))
  · show ((wsRun l).reverse.takeWhile (fun c => c != '\n')).reverse ++
      l.drop (wsRun l).length = _
    rw [hb, hdrop]
  · have hl2 : wsRun l ++ l.dropWhile isPySpace = l :=
      List.takeWhile_append_dropWhile isPySpace l
    conv_lhs => rw [← hl2]
    rw [hsplit, List.append_assoc]
    rfl

theorem subNL_getLast (l : Str) : (subNL l).getLast? = l.getLast? := by
  induction l using subNL.induct with
  | case1 => rw [subNL_nil]
  | case2 c rest h ih =>
    obtain ⟨hc, hm⟩ := h
    subst hc
    rw [subNL_match rest hm]
    obtain ⟨a, b, hq, hbws, hbnl, hskip, hl⟩ := skipMatched_decomp hm
    rw [hskip] at ih
    cases hbr : b ++ rest.dropWhile isPySpace with
    | nil =>
      rw [hskip, hbr, subNL_nil]
      rw [hl, hbr]
      have hne : a ++ '\n' :: ([] : Str) ≠ [] := by simp
      rw [getLast?_cons_of_ne_nil hne]
      rw [show a ++ '\n' :: ([] : Str) = a ++ ['\n'] from rfl, List.getLast?_concat]
      rfl
    | cons z zs =>
      rw [hskip, hbr]
      have hsub_ne : subNL (z :: zs) ≠ [] := subNL_ne_nil (List.cons_ne_nil z zs)
      rw [getLast?_cons_of_ne_nil (by simp), getLast?_cons_of_ne_nil hsub_ne]
      rw [hbr] at ih
      rw [ih, hl, hbr]
      have hne2 : a ++ '\n' :: z :: zs ≠ [] := by simp
      rw [getLast?_cons_of_ne_nil hne2,
        List.getLast?_append_of_ne_nil a (List.cons_ne_nil '\n' (z :: zs)),
        getLast?_cons_of_ne_nil (List.cons_ne_nil z zs)]
  | case3 c rest h ih =>
    rw [subNL_nomatch c rest h]
    cases rest with
    | nil => rw [subNL_nil]
    | cons d ds =>
      rw [getLast?_cons_of_ne_nil (subNL_ne_nil (List.cons_ne_nil d ds)),
        getLast?_cons_of_ne_nil (List.cons_ne_nil d ds)]
      exact ih

/-! ### No blank run longer than one blank line survives `subNL` -/

theorem hasBadRun_nil : ¬ HasBadRun [] := by
  rintro ⟨l, w, r, he, -, -⟩
  exact absurd he (by simp)

theorem hasBadRun_cons {c : Char} {t : Str} :
    HasBadRun (c :: t) ↔
      (c = '\n' ∧ ∃ w r, t = w ++ '\n' :: r ∧ w ≠ [] ∧ ∀ x ∈ w, isPySpace x = true) ∨
      HasBadRun t := by
  constructor
  · rintro ⟨l, w, r, he, hw, hws⟩
    cases l with
    | nil =>
      rw [List.nil_append] at he
      injection he with h1 h2
      exact Or.inl ⟨h1, w, r, h2, hw, hws⟩
    | cons x l' =>
      rw [List.cons_append] at he
      injection he with h1 h2
      exact Or.inr ⟨l', w, r, h2, hw, hws⟩
  · rintro (⟨hc, w, r, ht, hw, hws⟩ | ⟨l, w, r, he, hw, hws⟩)
    · exact ⟨[], w, r, by rw [hc, ht]; rfl, hw, hws⟩
    · exact ⟨c :: l, w, r, by rw [he]; rfl, hw, hws⟩

/-- A string whose whitespace run contains no newline cannot be split as a
whitespace block followed by a newline. -/
theorem no_decomp_of_no_nl {t : Str} (h : '\n' ∉ wsRun t) :
    ¬ ∃ w r, t = w ++ '\n' :: r ∧ ∀ x ∈ w, isPySpace x = true := by
  rintro ⟨w, r, ht, hws⟩
  apply h
  rw [ht, wsRun_append_ws _ hws, wsRun_cons_pos _ (by decide)]
  exact List.mem_append.mpr (Or.inr (List.mem_cons_self _ _))

theorem subNL_no_badRun (l : Str) : ¬ HasBadRun (subNL l) := by
  induction l using subNL.induct with
  | case1 =>
    rw [subNL_nil]
    exact hasBadRun_nil
  | case2 c rest h ih =>
    obtain ⟨hc, hm⟩ := h
    subst hc
    rw [subNL_match rest hm]
    obtain ⟨a, b, hq, hbws, hbnl, hskip, hl⟩ := skipMatched_decomp hm
    have hrun : wsRun (skipMatched rest) = b := by
      rw [hskip, wsRun_append_ws _ hbws, wsRun_dropWhile, List.append_nil]
    have hnb : '\n' ∉ wsRun (subNL (skipMatched rest)) := by
      rw [wsRun_subNL (by rw [hrun]; exact hbnl), hrun]
      exact hbnl
    intro hbad
    rcases hasBadRun_cons.mp hbad with ⟨-, w, r, hteq, hw, hws⟩ | hbad2
    · cases w with
      | nil => exact absurd rfl hw
      | cons x w' =>
        rw [List.cons_append] at hteq
        injection hteq with hx hrest2
        exact no_decomp_of_no_nl hnb
          ⟨w', r, hrest2, fun y hy => hws y (List.mem_cons_of_mem x hy)⟩
    · rcases hasBadRun_cons.mp hbad2 with ⟨-, w, r, hteq, hw, hws⟩ | hbad3
      · exact no_decomp_of_no_nl hnb ⟨w, r, hteq, hws⟩
      · exact ih hbad3
  | case3 c rest h ih =>
    rw [subNL_nomatch c rest h]
    intro hbad
    rcases hasBadRun_cons.mp hbad with ⟨hc, w, r, hteq, hw, hws⟩ | hbad2
    · subst hc
      have hnn : '\n' ∉ wsRun rest := fun hm => h ⟨rfl, hm⟩
      have hnb : '\n' ∉ wsRun (subNL rest) := by
        rw [wsRun_subNL hnn]
        exact hnn
      exact no_decomp_of_no_nl hnb ⟨w, r, hteq, hws⟩
    · exact ih hbad2

theorem subNL_fixpoint (l : Str) : ¬ HasBadRun l → subNL l = l := by
  induction l using subNL.induct with
  | case1 =>
    intro _
    exact subNL_nil
  | case2 c rest hcm ih =>
    intro h
    obtain ⟨hc, hm⟩ := hcm
    subst hc
    obtain ⟨a, b, hq, hbws, hbnl, hskip, hl⟩ := skipMatched_decomp hm
    have ha : a = [] := by
      by_contra hane
      refine h ⟨[], a, b ++ rest.dropWhile isPySpace, ?_, hane,
        fun c hc => wsRun_mem_ws (hq ▸ List.mem_append.mpr (Or.inl hc))⟩
      conv_lhs => rw [hl]
      rfl
    subst ha
    rw [subNL_match rest hm, hskip]
    rw [hskip] at ih
    have hnext : ¬ HasBadRun (b ++ rest.dropWhile isPySpace) := by
      intro hb
      apply h
      obtain ⟨l2, w, r, he, hw, hws⟩ := hb
      refine ⟨'\n' :: '\n' :: l2, w, r, ?_, hw, hws⟩
      conv_lhs => rw [hl]
      rw [List.nil_append, he]
      rfl
    rw [ih hnext]
    conv_rhs => rw [hl]
    rfl
  | case3 c rest hcm ih =>
    intro h
    rw [subNL_nomatch c rest hcm]
    rw [ih (fun hb => h (hasBadRun_cons.mpr (Or.inr hb)))]

/-! ### Properties of `stripBoth` -/

theorem dropWhile_head_ws {α : Type _} {p : α → Bool} {l : List α} {c : α}
    (h : (l.dropWhile p).head? = some c) : p c = false := by
  cases hd : l.dropWhile p with
  | nil =>
    rw [hd] at h
    simp at h
  | cons x xs =>
    rw [hd] at h
    have hx : x = c := by simpa using h
    subst hx
    exact dropWhile_head_neg hd

theorem dropWhile_getLast {α : Type _} {p : α → Bool} {l : List α}
    (h : l.dropWhile p ≠ []) : (l.dropWhile p).getLast? = l.getLast? := by
  induction l with
  | nil => simp at h
  | cons a as ih =>
    rw [List.dropWhile_cons]
    by_cases hpa : p a = true
    · rw [List.dropWhile_cons, if_pos hpa] at h
      have has : as ≠ [] := by
        intro he
        rw [he] at h
        simp at h
      rw [if_pos hpa, ih h, getLast?_cons_of_ne_nil has]
    · rw [if_neg hpa]

theorem dropWhile_eq_self_of_head {α : Type _} {p : α → Bool} {l : List α}
    (h : ∀ c, l.head? = some c → p c = false) : l.dropWhile p = l := by
  cases l with
  | nil => rfl
  | cons a as =>
    rw [List.dropWhile_cons, if_neg]
    rw [h a rfl]
    simp

theorem dropWhile_idem {α : Type _} (p : α → Bool) (l : List α) :
    (l.dropWhile p).dropWhile p = l.dropWhile p := by
  apply dropWhile_eq_self_of_head
  intro c hc
  exact dropWhile_head_ws hc

theorem stripBoth_getLast {l : Str} {c : Char}
    (h : (stripBoth l).getLast? = some c) : isPySpace c = false := by
  unfold stripBoth at h
  rw [List.getLast?_reverse] at h
  exact dropWhile_head_ws h

theorem stripBoth_head {l : Str} {c : Char}
    (h : (stripBoth l).head? = some c) : isPySpace c = false := by
  unfold stripBoth at h
  rw [List.head?_reverse] at h
  have hne : (l.dropWhile isPySpace).reverse.dropWhile isPySpace ≠ [] := by
    intro he
    rw [he] at h
    simp at h
  rw [dropWhile_getLast hne, List.getLast?_reverse] at h
  exact dropWhile_head_ws h

theorem stripBoth_all_ws {l : Str} (h : ∀ c ∈ l, isPySpace c = true) :
    stripBoth l = [] := by
  unfold stripBoth
  rw [List.dropWhile_eq_nil_iff.mpr h]
  rfl

theorem stripBoth_eq_self {l : Str}
    (h1 : ∀ c, l.head? = some c → isPySpace c = false)
    (h2 : ∀ c, l.getLast? = some c → isPySpace c = false) : stripBoth l = l := by
  unfold stripBoth
  rw [dropWhile_eq_self_of_head h1]
  rw [dropWhile_eq_self_of_head (fun c hc => h2 c (by rw [← List.head?_reverse]; exact hc))]
  exact List.reverse_reverse l

theorem stripBoth_dropWhile (l : Str) :
    stripBoth (l.dropWhile isPySpace) = stripBoth l := by
  unfold stripBoth
  rw [dropWhile_idem]

/-! ### The normalized content is clean -/

theorem cleanContent_head {c : Str} {x : Char}
    (h : (cleanContent c).head? = some x) : isPySpace x = false := by
  unfold cleanContent at h
  rw [subNL_head] at h
  exact stripBoth_head h

theorem cleanContent_getLast {c : Str} {x : Char}
    (h : (cleanContent c).getLast? = some x) : isPySpace x = false := by
  unfold cleanContent at h
  rw [subNL_getLast] at h
  exact stripBoth_getLast h

theorem cleanContent_no_badRun (c : Str) : ¬ HasBadRun (cleanContent c) :=
  subNL_no_badRun (stripBoth c)

theorem cleanContent_idem (s : Str) : cleanContent (cleanContent s) = cleanContent s := by
  have hstrip : stripBoth (cleanContent s) = cleanContent s :=
    stripBoth_eq_self (fun c hc => cleanContent_head hc)
      (fun c hc => cleanContent_getLast hc)
  show subNL (stripBoth (cleanContent s)) = cleanContent s
  rw [hstrip]
  exact subNL_fixpoint (cleanContent s) (cleanContent_no_badRun s)

theorem cleanContent_nil : cleanContent [] = [] := by
  unfold cleanContent
  rw [show stripBoth [] = [] from rfl, subNL_nil]

/-! ### The conversion loop -/

theorem finalizeInto_length (cur : Option (Str × Str)) (secs : List MDSection) :
    (finalizeInto cur secs).length = secs.length + (finalizeInto cur []).length := by
  cases cur with
  | none => simp [finalizeInto]
  | some tc => simp [finalizeInto]

theorem convLoop_length (lines : List Str) :
    ∀ cur secs, (convLoop lines cur secs).length =
      secs.length + (finalizeInto cur []).length +
        (lines.filter fun l => (headerMatch l).isSome).length := by
  induction lines with
  | nil =>
    intro cur secs
    show (finalizeInto cur secs).length = _
    rw [finalizeInto_length]
    simp
  | cons l rest ih =>
    intro cur secs
    cases hm : headerMatch l with
    | some g =>
      have hstep : convLoop (l :: rest) cur secs =
          convLoop rest (some (stripBoth g, [])) (finalizeInto cur secs) := by
        show (match headerMatch l with
          | some g => convLoop rest (some (stripBoth g, [])) (finalizeInto cur secs)
          | none => match cur with
            | none => convLoop rest none secs
            | some (t, c) => convLoop rest (some (t, c ++ l ++ ['\n'])) secs) = _
        rw [hm]
      rw [hstep, ih, finalizeInto_length]
      rw [List.filter_cons, hm]
      simp [finalizeInto]
      omega
    | none =>
      have hfil : ((l :: rest).filter fun l2 => (headerMatch l2).isSome) =
          rest.filter fun l2 => (headerMatch l2).isSome := by
        rw [List.filter_cons, hm]
        rfl
      cases cur with
      | none =>
        have hstep : convLoop (l :: rest) none secs = convLoop rest none secs := by
          show (match headerMatch l with
            | some g => convLoop rest (some (stripBoth g, [])) (finalizeInto none secs)
            | none => convLoop rest none secs) = _
          rw [hm]
        rw [hstep, ih, hfil]
      | some tc =>
        obtain ⟨t, c⟩ := tc
        have hstep : convLoop (l :: rest) (some (t, c)) secs =
            convLoop rest (some (t, c ++ l ++ ['\n'])) secs := by
          show (match headerMatch l with
            | some g => convLoop rest (some (stripBoth g, [])) (finalizeInto (some (t, c)) secs)
            | none => convLoop rest (some (t, c ++ l ++ ['\n'])) secs) = _
          rw [hm]
        rw [hstep, ih, hfil]
        simp [finalizeInto]

theorem convLoop_cons_header {l g : Str} (hm : headerMatch l = some g)
    (rest : List Str) (cur : Option (Str × Str)) (secs : List MDSection) :
    convLoop (l :: rest) cur secs =
      convLoop rest (some (stripBoth g, [])) (finalizeInto cur secs) := by
  show (match headerMatch l with
    | some g => convLoop rest (some (stripBoth g, [])) (finalizeInto cur secs)
    | none => match cur with
      | none => convLoop rest none secs
      | some (t, c) => convLoop rest (some (t, c ++ l ++ ['\n'])) secs) = _
  rw [hm]

theorem convLoop_cons_none_none {l : Str} (hm : headerMatch l = none)
    (rest : List Str) (secs : List MDSection) :
    convLoop (l :: rest) none secs = convLoop rest none secs := by
  show (match headerMatch l with
    | some g => convLoop rest (some (stripBoth g, [])) (finalizeInto none secs)
    | none => convLoop rest none secs) = _
  rw [hm]

theorem convLoop_cons_none_some {l : Str} (hm : headerMatch l = none)
    (rest : List Str) (t c : Str) (secs : List MDSection) :
    convLoop (l :: rest) (some (t, c)) secs =
      convLoop rest (some (t, c ++ l ++ ['\n'])) secs := by
  show (match headerMatch l with
    | some g => convLoop rest (some (stripBoth g, [])) (finalizeInto (some (t, c)) secs)
    | none => convLoop rest (some (t, c ++ l ++ ['\n'])) secs) = _
  rw [hm]

theorem splitSpec_nil : splitSpec [] = [] := by
  simp [splitSpec]

theorem splitSpec_cons_header {l g : Str} (hm : headerMatch l = some g) (rest : List Str) :
    splitSpec (l :: rest) =
      MDSection.mk (stripBoth g)
          (cleanContent (joinLines (rest.takeWhile (fun l2 => (headerMatch l2).isNone))))
        :: splitSpec (rest.drop (rest.takeWhile (fun l2 => (headerMatch l2).isNone)).length) := by
  rw [splitSpec]
  rw [hm]

theorem splitSpec_cons_none {l : Str} (hm : headerMatch l = none) (rest : List Str) :
    splitSpec (l :: rest) = splitSpec rest := by
  rw [splitSpec]
  rw [hm]

/-- Every content field in the loop's output is the cleaning of some
accumulated body. -/
theorem convLoop_content (lines : List Str) :
    ∀ cur secs sec, sec ∈ convLoop lines cur secs →
      sec ∈ secs ∨ ∃ c, sec.content = cleanContent c := by
  induction lines with
  | nil =>
    intro cur secs sec h
    cases cur with
    | none => exact Or.inl h
    | some tc =>
      obtain ⟨t, c⟩ := tc
      rcases List.mem_append.mp h with h1 | h1
      · exact Or.inl h1
      · rw [List.mem_singleton] at h1
        exact Or.inr ⟨c, by rw [h1]⟩
  | cons l rest ih =>
    intro cur secs sec h
    cases hm : headerMatch l with
    | some g =>
      rw [convLoop_cons_header hm] at h
      rcases ih _ _ _ h with h1 | h1
      · cases cur with
        | none => exact Or.inl h1
        | some tc =>
          obtain ⟨t, c⟩ := tc
          rcases List.mem_append.mp h1 with h2 | h2
          · exact Or.inl h2
          · rw [List.mem_singleton] at h2
            exact Or.inr ⟨c, by rw [h2]⟩
      · exact Or.inr h1
    | none =>
      cases cur with
      | none =>
        rw [convLoop_cons_none_none hm] at h
        exact ih _ _ _ h
      | some tc =>
        obtain ⟨t, c⟩ := tc
        rw [convLoop_cons_none_some hm] at h
        exact ih _ _ _ h

theorem joinLines_nil : joinLines [] = [] := rfl

theorem joinLines_cons (l : Str) (ls : List Str) :
    joinLines (l :: ls) = l ++ '\n' :: joinLines ls := rfl

/-- The loop refines the specification-level splitter: with an open section
`(t, c)` the loop finishes that section with the upcoming non-header lines
and continues as `splitSpec` from the next header on. -/
theorem convLoop_splitSpec (lines : List Str) :
    ∀ cur secs, convLoop lines cur secs =
      secs ++ (match cur with
        | none => splitSpec lines
        | some (t, c) =>
          MDSection.mk t
              (cleanContent (c ++ joinLines (lines.takeWhile (fun l => (headerMatch l).isNone))))
            :: splitSpec (lines.drop (lines.takeWhile (fun l => (headerMatch l).isNone)).length)) := by
  induction lines with
  | nil =>
    intro cur secs
    cases cur with
    | none =>
      show finalizeInto none secs = secs ++ splitSpec []
      rw [splitSpec_nil, List.append_nil]
      rfl
    | some tc =>
      obtain ⟨t, c⟩ := tc
      show finalizeInto (some (t, c)) secs = _
      simp [finalizeInto, joinLines_nil, splitSpec_nil]
  | cons l rest ih =>
    intro cur secs
    cases hm : headerMatch l with
    | some g =>
      rw [convLoop_cons_header hm, ih]
      cases cur with
      | none =>
        rw [splitSpec_cons_header hm]
        rfl
      | some tc =>
        obtain ⟨t, c⟩ := tc
        have htw : ((l :: rest).takeWhile (fun l2 => (headerMatch l2).isNone)) = [] := by
          rw [List.takeWhile_cons, hm]
          rfl
        rw [htw]
        dsimp only [finalizeInto, joinLines_nil]
        simp only [List.append_nil, List.length_nil, List.drop_zero, List.append_assoc,
          List.singleton_append]
        rw [splitSpec_cons_header hm]
        rfl
    | none =>
      cases cur with
      | none =>
        rw [convLoop_cons_none_none hm, ih, splitSpec_cons_none hm]
      | some tc =>
        obtain ⟨t, c⟩ := tc
        rw [convLoop_cons_none_some hm, ih]
        have htw : ((l :: rest).takeWhile (fun l2 => (headerMatch l2).isNone)) =
            l :: rest.takeWhile (fun l2 => (headerMatch l2).isNone) := by
          rw [List.takeWhile_cons, hm]
          rfl
        rw [htw, joinLines_cons]
        simp only [List.length_cons, List.drop_succ_cons, List.append_assoc,
          List.cons_append, List.nil_append]

/-- The conversion is exactly the specification-level splitter applied to
the document's lines. -/
theorem conv_eq_splitSpec (md : Str) :
    convert_markdown_to_json md = splitSpec (splitlines md) := by
  show convLoop (splitlines md) none [] = _
  rw [convLoop_splitSpec]
  rfl

/-! ### The header pattern -/

theorem matchAfterMarker_nil : matchAfterMarker [] = none := rfl

theorem matchAfterMarker_isSome {rest : Str} (h : rest ≠ []) :
    (matchAfterMarker rest).isSome = true := by
  unfold matchAfterMarker
  by_cases hq : (rest.dropWhile isPySpace).isEmpty = true
  · rw [if_pos hq]
    cases hg : rest.getLast? with
    | none => exact absurd (List.getLast?_eq_none_iff.mp hg) h
    | some x => rfl
  · rw [if_neg hq]
    rfl

theorem matchAfterMarker_none {rest : Str} (h : matchAfterMarker rest = none) :
    rest = [] := by
  by_contra hne
  have := matchAfterMarker_isSome hne
  rw [h] at this
  simp at this

/-- The trimmed captured group equals the trimmed remainder after the
marker: backtracking of the greedy `\s*` never changes the stripped title. -/
theorem matchAfterMarker_strip {rest g : Str} (h : matchAfterMarker rest = some g) :
    stripBoth g = stripBoth rest := by
  unfold matchAfterMarker at h
  by_cases hq : (rest.dropWhile isPySpace).isEmpty = true
  · rw [if_pos hq] at h
    have hall : ∀ c ∈ rest, isPySpace c = true :=
      List.dropWhile_eq_nil_iff.mp (by simpa using hq)
    cases hg : rest.getLast? with
    | none =>
      rw [hg] at h
      simp at h
    | some x =>
      rw [hg] at h
      have hgx : g = [x] := by
        simpa using h.symm
      subst hgx
      have hx : isPySpace x = true := hall x (List.mem_of_mem_getLast? hg)
      rw [stripBoth_all_ws hall, stripBoth_all_ws]
      intro c hc
      rw [List.mem_singleton] at hc
      subst hc
      exact hx
  · rw [if_neg hq] at h
    have hg : g = rest.dropWhile isPySpace := by
      have := h
      simp only [Option.some.injEq] at this
      exact this.symm
    subst hg
    exact stripBoth_dropWhile rest

/-- A line matches the header pattern exactly when it starts with `##` and
has a non-empty remainder; in particular lines starting with three or more
`#` characters also match. -/
theorem headerMatch_isSome_iff (line : Str) :
    (headerMatch line).isSome = isHeaderSpec line := by
  match line with
  | [] => rfl
  | [c1] => rfl
  | c1 :: c2 :: rest =>
    show (if c1 = '#' ∧ c2 = '#' then matchAfterMarker rest else none).isSome = _
    by_cases hc : c1 = '#' ∧ c2 = '#'
    · obtain ⟨h1, h2⟩ := hc
      subst h1
      subst h2
      rw [if_pos ⟨rfl, rfl⟩]
      cases rest with
      | nil => rfl
      | cons r rs =>
        rw [matchAfterMarker_isSome (List.cons_ne_nil r rs)]
        rfl
    · rw [if_neg hc]
      cases rest with
      | nil =>
        show false = isHeaderSpec [c1, c2]
        rfl
      | cons r rs =>
        show false = (c1 == '#' && c2 == '#')
        rcases not_and_or.mp hc with h1 | h1
        · rw [show (c1 == '#') = false by simpa using h1]
          rfl
        · rw [show (c2 == '#') = false by simpa using h1]
          simp

/-- A whitespace-only line never matches the header pattern. -/
theorem headerMatch_ws_none {line : Str} (h : ∀ c ∈ line, isPySpace c = true) :
    headerMatch line = none := by
  match line with
  | [] => rfl
  | [c1] => rfl
  | c1 :: c2 :: rest =>
    show (if c1 = '#' ∧ c2 = '#' then matchAfterMarker rest else none) = none
    rw [if_neg]
    rintro ⟨h1, h2⟩
    subst h1
    have := h '#' (List.mem_cons_self _ _)
    simp [isPySpace] at this

theorem takeWhile_append_cons_neg {α : Type _} {p : α → Bool} {y : α}
    (hy : p y = false) (w r : List α) :
    (w ++ y :: r).takeWhile p = w.takeWhile p := by
  induction w with
  | nil =>
    rw [List.nil_append, List.takeWhile_cons, if_neg]
    · rfl
    · rw [hy]
      simp
  | cons a as ih =>
    rw [List.cons_append, List.takeWhile_cons, List.takeWhile_cons]
    by_cases hpa : p a = true
    · rw [if_pos hpa, if_pos hpa, ih]
    · rw [if_neg hpa, if_neg hpa]

theorem headerMatch_marker (rest : Str) :
    headerMatch ('#' :: '#' :: rest) = matchAfterMarker rest := by
  show (if '#' = '#' ∧ '#' = '#' then matchAfterMarker rest else none) = _
  rw [if_pos ⟨rfl, rfl⟩]

/-! ### `splitlines` on a single break-free line -/

theorem splitlinesAux_no_break (l : Str) (hl : ∀ c ∈ l, isLineBreak c = false) :
    ∀ acc : Str, splitlinesAux acc l =
      if (acc.reverse ++ l).isEmpty then [] else [acc.reverse ++ l] := by
  induction l with
  | nil =>
    intro acc
    show (if acc.isEmpty then [] else [acc.reverse]) = _
    rw [List.append_nil]
    by_cases ha : acc.isEmpty = true
    · rw [if_pos ha, if_pos]
      rw [show acc = [] from by simpa [List.isEmpty_iff] using ha]
      rfl
    · rw [if_neg ha, if_neg]
      intro hrev
      apply ha
      rw [List.isEmpty_iff] at hrev ⊢
      rw [← List.reverse_reverse acc, hrev]
      rfl
  | cons c cs ih =>
    intro acc
    have hc : isLineBreak c = false := hl c (List.mem_cons_self _ _)
    have hcr : ¬ c = '\r' := by
      intro he
      rw [he] at hc
      simp [isLineBreak] at hc
    have hcb : ¬ isLineBreak c = true := by
      rw [hc]
      simp
    rw [splitlinesAux.eq_def]
    dsimp only
    rw [if_neg hcr, if_neg hcb]
    rw [ih (fun x hx => hl x (List.mem_cons_of_mem c hx)) (c :: acc)]
    have hrw : (c :: acc).reverse ++ cs = acc.reverse ++ (c :: cs) := by
      rw [List.reverse_cons, List.append_assoc]
      rfl
    rw [hrw]

theorem splitlines_single {l : Str} (hl : ∀ c ∈ l, isLineBreak c = false)
    (hne : l ≠ []) : splitlines l = [l] := by
  show splitlinesAux [] l = _
  rw [splitlinesAux_no_break l hl []]
  rw [show (([] : Str).reverse ++ l) = l from by simp]
  rw [if_neg]
  rw [List.isEmpty_iff]
  exact hne

/-- A single header line with a break-free remainder converts to exactly one
section: trimmed title, empty content. -/
theorem conv_single_header {rest : Str} (hb : ∀ c ∈ rest, isLineBreak c = false)
    (hne : rest ≠ []) :
    convert_markdown_to_json ('#' :: '#' :: rest) = [⟨stripBoth rest, []⟩] := by
  have hlb : ∀ c ∈ '#' :: '#' :: rest, isLineBreak c = false := by
    intro c hc
    rcases List.mem_cons.mp hc with h1 | h1
    · subst h1
      decide
    · rcases List.mem_cons.mp h1 with h2 | h2
      · subst h2
        decide
      · exact hb c h2
  have hsp : splitlines ('#' :: '#' :: rest) = ['#' :: '#' :: rest] :=
    splitlines_single hlb (List.cons_ne_nil _ _)
  show convLoop (splitlines ('#' :: '#' :: rest)) none [] = _
  rw [hsp]
  cases hm : matchAfterMarker rest with
  | none => exact absurd (matchAfterMarker_none hm) hne
  | some g =>
    have hm2 : headerMatch ('#' :: '#' :: rest) = some g := by
      rw [headerMatch_marker, hm]
    rw [convLoop_cons_header hm2]
    show [MDSection.mk (stripBoth g) (cleanContent [])] = _
    rw [cleanContent_nil, matchAfterMarker_strip hm]

theorem joinLines_all_ws {ls : List Str} (h : ∀ l ∈ ls, ∀ c ∈ l, isPySpace c = true) :
    ∀ c ∈ joinLines ls, isPySpace c = true := by
  induction ls with
  | nil =>
    intro c hc
    simp [joinLines] at hc
  | cons l ls ih =>
    intro c hc
    rw [joinLines_cons] at hc
    rcases List.mem_append.mp hc with h1 | h1
    · exact h l (List.mem_cons_self _ _) c h1
    · rcases List.mem_cons.mp h1 with h2 | h2
      · subst h2
        decide
      · exact ih (fun l2 hl2 => h l2 (List.mem_cons_of_mem _ hl2)) c h2

theorem cleanContent_all_ws {s : Str} (h : ∀ c ∈ s, isPySpace c = true) :
    cleanContent s = [] := by
  unfold cleanContent
  rw [stripBoth_all_ws h, subNL_nil]

/-- The section of the last header: when every line after some header fails
the header pattern, the output ends with that header's section, whose
content is built from exactly those lines. -/
theorem splitSpec_trailing :
    ∀ (n : Nat) (xs : List Str), xs.length ≤ n →
      ∀ (hdr g : Str) (tail : List Str), headerMatch hdr = some g →
        (∀ l ∈ tail, (headerMatch l).isNone = true) →
        ∃ secs, splitSpec (xs ++ hdr :: tail) =
          secs ++ [⟨stripBoth g, cleanContent (joinLines tail)⟩] := by
  intro n
  induction n with
  | zero =>
    intro xs hxs hdr g tail hhdr htail
    have hx : xs = [] := List.length_eq_zero.mp (Nat.le_zero.mp hxs)
    subst hx
    rw [List.nil_append, splitSpec_cons_header hhdr]
    rw [takeWhile_eq_self_of_all htail, List.drop_length, splitSpec_nil]
    exact ⟨[], by rw [List.nil_append]⟩
  | succ n ihn =>
    intro xs hxs hdr g tail hhdr htail
    cases xs with
    | nil => exact ihn [] (Nat.zero_le n) hdr g tail hhdr htail
    | cons x xs' =>
      have hxs' : xs'.length ≤ n := by
        rw [List.length_cons] at hxs
        omega
      cases hmx : headerMatch x with
      | none =>
        rw [List.cons_append, splitSpec_cons_none hmx]
        exact ihn xs' hxs' hdr g tail hhdr htail
      | some g' =>
        rw [List.cons_append, splitSpec_cons_header hmx]
        have hq_hdr : ((headerMatch hdr).isNone) = false := by
          rw [hhdr]
          rfl
        have hbody : (xs' ++ hdr :: tail).takeWhile (fun l2 => (headerMatch l2).isNone)
            = xs'.takeWhile (fun l2 => (headerMatch l2).isNone) :=
          takeWhile_append_cons_neg (p := fun l2 => (headerMatch l2).isNone) hq_hdr xs' tail
        have hlen : (xs'.takeWhile (fun l2 => (headerMatch l2).isNone)).length ≤ xs'.length :=
          takeWhile_length_le _ _
        have hdrop : (xs' ++ hdr :: tail).drop
              ((xs'.takeWhile (fun l2 => (headerMatch l2).isNone)).length)
            = (xs'.drop ((xs'.takeWhile (fun l2 => (headerMatch l2).isNone)).length))
              ++ hdr :: tail :=
          List.drop_append_of_le_length hlen
        have hlen2 : (xs'.drop
            ((xs'.takeWhile (fun l2 => (headerMatch l2).isNone)).length)).length ≤ n := by
          rw [List.length_drop]
          omega
        obtain ⟨secs, hs⟩ := ihn _ hlen2 hdr g tail hhdr htail
        rw [hbody, hdrop, hs]
        exact ⟨MDSection.mk (stripBoth g')
          (cleanContent (joinLines (xs'.takeWhile (fun l2 => (headerMatch l2).isNone))))
          :: secs, rfl⟩

theorem subNL_no_nl {w : Str} (h : '\n' ∉ w) : subNL w = w := by
  have h2 := subNL_chunk [] h
  rw [List.append_nil, subNL_nil, List.append_nil] at h2
  exact h2

theorem cleanContent_no_nl {s : Str} (h : '\n' ∉ stripBoth s) :
    cleanContent s = stripBoth s := by
  unfold cleanContent
  exact subNL_no_nl h

/-- A document consisting of a single line `##` followed by a non-empty
break-free remainder converts to one section titled with the trimmed
remainder and with empty content. -/
theorem conv_marker_line {rest : Str} (h1 : rest ≠ [])
    (h2 : (rest.all fun c => !isLineBreak c) = true) :
    (headerMatch ('#' :: '#' :: rest)).map stripBoth = some (stripBoth rest) ∧
    convert_markdown_to_json ('#' :: '#' :: rest) = [⟨stripBoth rest, []⟩] := by
  have hb : ∀ c ∈ rest, isLineBreak c = false := by
    intro c hc
    have := List.all_eq_true.mp h2 c hc
    simpa using this
  constructor
  · rw [headerMatch_marker]
    cases hm : matchAfterMarker rest with
    | none => exact absurd (matchAfterMarker_none hm) h1
    | some g =>
      show some (stripBoth g) = _
      rw [matchAfterMarker_strip hm]
  · exact conv_single_header hb h1

/-! ### The claims -/

/-- Claim C1, counterexample: the claim says a line beginning with three or
more `#` characters does not start a new section, but the line `### Sub`
matches the header pattern and the whole document `### Sub` converts to one
section titled `# Sub` — the code treats it as a section boundary. -/
theorem C1_counterexample :
    (headerMatch ("### Sub".toList)).isSome = true ∧
    convert_markdown_to_json ("### Sub".toList) = [MDSection.mk ("# Sub".toList) []] := by
  constructor
  · decide
  · have h := @conv_marker_line ("# Sub".toList) (by decide) (by decide)
    rw [show stripBoth ("# Sub".toList) = "# Sub".toList from by decide] at h
    exact h.2

/-- Claim C1, amended: a line of the document is a section boundary exactly
when it starts with the two-character marker `##` followed by a non-empty
remainder — with no upper bound on the number of `#`: a line starting with
three or more `#` also matches, the extra `#` characters remaining in the
captured remainder. -/
theorem C1_header_iff (md line : Str) (h : line ∈ splitlines md) :
    (headerMatch line).isSome = isHeaderSpec line :=
  headerMatch_isSome_iff line

/-- Witness for C1: the boundary test evaluated on the line `### Sub` of the
document `### Sub`. -/
theorem C1_witness :
    ("### Sub".toList ∈ splitlines ("### Sub".toList)) ∧
    (headerMatch ("### Sub".toList)).isSome = isHeaderSpec ("### Sub".toList) :=
  ⟨by decide, C1_header_iff ("### Sub".toList) ("### Sub".toList) (by decide)⟩

/-- Claim C3: the number of sections returned equals the number of input
lines matching the header pattern; when no line matches the result is empty
(so any content before the first header is discarded). -/
theorem C3_section_count (md : Str) :
    (convert_markdown_to_json md).length =
      ((splitlines md).filter fun l => (headerMatch l).isSome).length ∧
    (((splitlines md).filter fun l => (headerMatch l).isSome) = [] →
      convert_markdown_to_json md = []) := by
  have hlen : (convert_markdown_to_json md).length =
      ((splitlines md).filter fun l => (headerMatch l).isSome).length := by
    show (convLoop (splitlines md) none []).length = _
    rw [convLoop_length]
    simp [finalizeInto]
  refine ⟨hlen, fun hnil => ?_⟩
  have hzero : (convert_markdown_to_json md).length = 0 := by
    rw [hlen, hnil]
    rfl
  exact List.length_eq_zero.mp hzero

/-- Witness for C3: the count invariant evaluated on a header-free document,
where the conversion drops all leading content and returns no sections. -/
theorem C3_witness :
    (convert_markdown_to_json ("just text\nmore text".toList)).length =
      ((splitlines ("just text\nmore text".toList)).filter
        fun l => (headerMatch l).isSome).length ∧
    (((splitlines ("just text\nmore text".toList)).filter
        fun l => (headerMatch l).isSome) = [] →
      convert_markdown_to_json ("just text\nmore text".toList) = []) :=
  C3_section_count ("just text\nmore text".toList)

/-- Claim C5: for every input containing no line matching the header
pattern — including the empty string — the conversion returns the empty
list, dropping all content lines. -/
theorem C5_no_headers_empty (md : Str)
    (h : ((splitlines md).all fun l => (headerMatch l).isNone) = true) :
    convert_markdown_to_json md = [] := by
  have hfil : ((splitlines md).filter fun l => (headerMatch l).isSome) = [] := by
    rw [List.filter_eq_nil_iff]
    intro l hl
    have := List.all_eq_true.mp h l hl
    rw [Option.isNone_iff_eq_none] at this
    rw [this]
    simp
  have hzero : (convert_markdown_to_json md).length = 0 := by
    show (convLoop (splitlines md) none []).length = 0
    rw [convLoop_length, hfil]
    simp [finalizeInto]
  exact List.length_eq_zero.mp hzero

/-- Witness for C5: the conversion of the empty document and of a
header-free document both evaluate to the empty list. -/
theorem C5_witness :
    ((splitlines ("".toList)).all fun l => (headerMatch l).isNone) = true ∧
    convert_markdown_to_json ("".toList) = [] ∧
    ((splitlines ("just text\nmore text".toList)).all fun l => (headerMatch l).isNone) = true ∧
    convert_markdown_to_json ("just text\nmore text".toList) = [] :=
  ⟨by decide, C5_no_headers_empty ("".toList) (by decide),
   by decide, C5_no_headers_empty ("just text\nmore text".toList) (by decide)⟩

/-- Claim C7: the content-normalization transform — strip surrounding
whitespace, then collapse blank-line runs — is idempotent. -/
theorem C7_normalize_idempotent (s : Str) :
    cleanContent (cleanContent s) = cleanContent s :=
  cleanContent_idem s

/-- Claim C8: the splitting function is total — for every input text it
returns a value.  The embedding is a total function with no error or
exception path; the source likewise contains no raise and no reachable
failing operation inside `convert_markdown_to_json`. -/
theorem C8_split_total (md : Str) :
    ∃ out : List MDSection, convert_markdown_to_json md = out :=
  ⟨convert_markdown_to_json md, rfl⟩

/-- Claim C2: every section's content carries no leading or trailing
whitespace, and no blank run of more than one blank line survives; the
body `"p1\n\n\n\n   \np2"` normalizes to `"p1\n\np2"`. -/
theorem C2_content_normalized (md : Str) (sec : MDSection)
    (h : sec ∈ convert_markdown_to_json md) :
    (sec.content.head?.all fun c => !isPySpace c) = true ∧
    (sec.content.getLast?.all fun c => !isPySpace c) = true ∧
    ¬ HasBadRun sec.content ∧
    cleanContent ("p1\n\n\n\n   \np2".toList) = "p1\n\np2".toList := by
  rcases convLoop_content (splitlines md) none [] sec h with h1 | ⟨c, hc⟩
  · simp at h1
  · refine ⟨?_, ?_, ?_, ?_⟩
    · cases hh : sec.content.head? with
      | none => rfl
      | some x =>
        show (!isPySpace x) = true
        rw [hc] at hh
        rw [cleanContent_head hh]
        rfl
    · cases hh : sec.content.getLast? with
      | none => rfl
      | some x =>
        show (!isPySpace x) = true
        rw [hc] at hh
        rw [cleanContent_getLast hh]
        rfl
    · rw [hc]
      exact cleanContent_no_badRun c
    · show subNL (stripBoth ("p1\n\n\n\n   \np2".toList)) = _
      rw [show stripBoth ("p1\n\n\n\n   \np2".toList) =
        ('p' :: '1' :: '\n' :: '\n' :: '\n' :: '\n' :: ' ' :: ' ' :: ' ' :: '\n'
          :: 'p' :: ['2']) from by decide]
      rw [subNL_cons_ne (c := 'p') _ (by decide), subNL_cons_ne (c := '1') _ (by decide)]
      rw [subNL_match ('\n' :: '\n' :: '\n' :: ' ' :: ' ' :: ' ' :: '\n' :: 'p' :: ['2'])
        (by decide)]
      rw [show skipMatched ('\n' :: '\n' :: '\n' :: ' ' :: ' ' :: ' ' :: '\n' :: 'p' :: ['2'])
        = ('p' :: ['2']) from by decide]
      rw [subNL_cons_ne (c := 'p') _ (by decide), subNL_cons_ne (c := '2') _ (by decide),
        subNL_nil]
      decide

/-- Witness for C2: the single section of the document `## A` has empty
content, which is trivially clean on both ends and free of blank runs. -/
theorem C2_witness :
    (MDSection.mk ("A".toList) [] ∈ convert_markdown_to_json ("## A".toList)) ∧
    ((MDSection.mk ("A".toList) ([] : Str)).content.head?.all fun c => !isPySpace c) = true ∧
    ((MDSection.mk ("A".toList) ([] : Str)).content.getLast?.all fun c => !isPySpace c) = true ∧
    ¬ HasBadRun (MDSection.mk ("A".toList) ([] : Str)).content ∧
    cleanContent ("p1\n\n\n\n   \np2".toList) = "p1\n\np2".toList := by
  have hsp : splitlines ("## A".toList) = ["## A".toList] := by decide
  have hhdr : headerMatch ("## A".toList) = some ("A".toList) := by decide
  have hconv : convert_markdown_to_json ("## A".toList) = [MDSection.mk ("A".toList) []] := by
    show convLoop (splitlines ("## A".toList)) none [] = _
    rw [hsp, convLoop_cons_header hhdr]
    show [MDSection.mk (stripBoth ("A".toList)) (cleanContent [])] = _
    rw [cleanContent_nil]
    decide
  have hmem : MDSection.mk ("A".toList) [] ∈ convert_markdown_to_json ("## A".toList) := by
    rw [hconv]
    exact List.mem_singleton.mpr rfl
  exact ⟨hmem, C2_content_normalized ("## A".toList) (MDSection.mk ("A".toList) []) hmem⟩

/-- Claim C4: the conversion returns the sections in the order their header
lines appear, each section's content being the normalized text of exactly
the lines between its header and the next header (or the end of the
document), the header line excluded; `## A\nx\n## B\ny` yields the two
sections `(A, x)` and `(B, y)` in that order. -/
theorem C4_sections_in_order (md : Str) :
    convert_markdown_to_json md = splitSpec (splitlines md) ∧
    convert_markdown_to_json ("## A\nx\n## B\ny".toList) =
      [MDSection.mk ("A".toList) ("x".toList), MDSection.mk ("B".toList) ("y".toList)] := by
  refine ⟨conv_eq_splitSpec md, ?_⟩
  have hsp : splitlines ("## A\nx\n## B\ny".toList) =
      ["## A".toList, "x".toList, "## B".toList, "y".toList] := by decide
  have h1 : headerMatch ("## A".toList) = some ("A".toList) := by decide
  have h2 : headerMatch ("x".toList) = none := by decide
  have h3 : headerMatch ("## B".toList) = some ("B".toList) := by decide
  have h4 : headerMatch ("y".toList) = none := by decide
  show convLoop (splitlines ("## A\nx\n## B\ny".toList)) none [] = _
  rw [hsp, convLoop_cons_header h1, convLoop_cons_none_some h2,
    convLoop_cons_header h3, convLoop_cons_none_some h4]
  simp only [convLoop, finalizeInto, List.nil_append]
  rw [cleanContent_no_nl (s := "x".toList ++ ['\n']) (by decide),
    cleanContent_no_nl (s := "y".toList ++ ['\n']) (by decide)]
  decide

/-- Claim C6: for every header line the section title is the captured
remainder after the `##` marker trimmed of surrounding whitespace, internal
spaces preserved. -/
theorem C6_title_trimmed (rest : Str) (h1 : rest ≠ [])
    (h2 : (rest.all fun c => !isLineBreak c) = true) :
    (headerMatch ('#' :: '#' :: rest)).map stripBoth = some (stripBoth rest) ∧
    convert_markdown_to_json ('#' :: '#' :: rest) = [MDSection.mk (stripBoth rest) []] :=
  conv_marker_line h1 h2

/-- Witness for C6: the line `##   Spaced Title   ` produces the title
`Spaced Title` exactly. -/
theorem C6_witness :
    ("   Spaced Title   ".toList ≠ []) ∧
    ("   Spaced Title   ".toList.all fun c => !isLineBreak c) = true ∧
    (headerMatch ("##   Spaced Title   ".toList)).map stripBoth =
      some ("Spaced Title".toList) ∧
    convert_markdown_to_json ("##   Spaced Title   ".toList) =
      [MDSection.mk ("Spaced Title".toList) []] := by
  have h := C6_title_trimmed ("   Spaced Title   ".toList) (by decide) (by decide)
  rw [show stripBoth ("   Spaced Title   ".toList) = "Spaced Title".toList
    from by decide] at h
  exact ⟨by decide, by decide, h.1, h.2⟩

/-- Claim C9: a line consisting of `##` followed by one or more whitespace
characters and nothing else is a section header whose title is empty. -/
theorem C9_ws_header_empty_title (rest : Str) (h1 : rest ≠ [])
    (h2 : (rest.all isPySpace) = true)
    (h3 : (rest.all fun c => !isLineBreak c) = true) :
    (headerMatch ('#' :: '#' :: rest)).map stripBoth = some [] ∧
    convert_markdown_to_json ('#' :: '#' :: rest) = [MDSection.mk [] []] := by
  have h := conv_marker_line h1 h3
  have hs : stripBoth rest = [] :=
    stripBoth_all_ws (fun c hc => List.all_eq_true.mp h2 c hc)
  rw [hs] at h
  exact h

/-- Witness for C9: the line `## ` is a header and yields the empty title. -/
theorem C9_witness :
    (" ".toList ≠ []) ∧
    (" ".toList.all isPySpace) = true ∧
    (" ".toList.all fun c => !isLineBreak c) = true ∧
    (headerMatch ("## ".toList)).map stripBoth = some [] ∧
    convert_markdown_to_json ("## ".toList) = [MDSection.mk [] []] := by
  have h := C9_ws_header_empty_title (" ".toList) (by decide) (by decide) (by decide)
  exact ⟨by decide, by decide, by decide, h.1, h.2⟩

/-- Claim C10: when a header is followed only by whitespace-only lines (or
by nothing) up to the end of the document, the conversion still emits a
section for it, and that final section's content is the empty string. -/
theorem C10_trailing_header_empty_content (md : Str) (ls : List Str) (hdr g : Str)
    (tail : List Str) (h1 : splitlines md = ls ++ hdr :: tail)
    (h2 : headerMatch hdr = some g)
    (h3 : (tail.all fun l => l.all isPySpace) = true) :
    (convert_markdown_to_json md).getLast? = some (MDSection.mk (stripBoth g) []) := by
  have htail : ∀ l ∈ tail, (headerMatch l).isNone = true := by
    intro l hl
    have hws : ∀ c ∈ l, isPySpace c = true := by
      intro c hc
      exact List.all_eq_true.mp (List.all_eq_true.mp h3 l hl) c hc
    rw [headerMatch_ws_none hws]
    rfl
  obtain ⟨secs, hs⟩ := splitSpec_trailing ls.length ls (Nat.le_refl _) hdr g tail h2 htail
  rw [conv_eq_splitSpec, h1, hs]
  have hcl : cleanContent (joinLines tail) = [] := by
    apply cleanContent_all_ws
    apply joinLines_all_ws
    intro l hl c hc
    exact List.all_eq_true.mp (List.all_eq_true.mp h3 l hl) c hc
  rw [hcl, List.getLast?_concat]

/-- Witness for C10: `## A` alone, and `## A` followed by a whitespace-only
line, both end with the section `(A, "")`. -/
theorem C10_witness :
    (splitlines ("## A\n \n".toList) = [] ++ "## A".toList :: [" ".toList]) ∧
    headerMatch ("## A".toList) = some ("A".toList) ∧
    ([" ".toList].all fun l => l.all isPySpace) = true ∧
    (convert_markdown_to_json ("## A\n \n".toList)).getLast? =
      some (MDSection.mk ("A".toList) []) ∧
    (convert_markdown_to_json ("## A".toList)).getLast? =
      some (MDSection.mk ("A".toList) []) := by
  have ha := C10_trailing_header_empty_content ("## A\n \n".toList) []
    ("## A".toList) ("A".toList) [" ".toList] (by decide) (by decide) (by decide)
  have hb := C10_trailing_header_empty_content ("## A".toList) []
    ("## A".toList) ("A".toList) [] (by decide) (by decide) (by decide)
  rw [show stripBoth ("A".toList) = "A".toList from by decide] at ha hb
  exact ⟨by decide, by decide, by decide, ha, hb⟩
